import Mathlib

/-!
Verification of the daily standup summary script (`src/main.py`).

Strings are modelled as `List Char`.  The Python string operations used by the
script (`str.strip`, `str.split(sep)`, `str.split(sep, maxsplit)`, `str.find`,
slicing) are embedded as executable functions below, keeping Python semantics
(`find` returns `-1` when absent, slices clamp out-of-range indices, `split`
keeps empty chunks).
-/

/-- Python `str.isspace` characters relevant to `str.strip()`. -/
def wsChar (c : Char) : Bool :=
  c = ' ' || c = '\t' || c = '\n' || c = '\r' || c = '\x0b' || c = '\x0c'

/-- Left strip: Python `str.lstrip()`. -/
def trimL (l : List Char) : List Char := l.dropWhile wsChar

/-- Right strip: Python `str.rstrip()`. -/
def trimR (l : List Char) : List Char := (trimL l.reverse).reverse

/-- Python `str.strip()`. -/
def trimList (l : List Char) : List Char := trimR (trimL l)

/-- Decidable check that `P` is a prefix of `l`. -/
def isPre : List Char → List Char → Bool
  | [], _ => true
  | _ :: _, [] => false
  | a :: as, b :: bs => a = b && isPre as bs

/-- No occurrence of the pattern `P` anywhere in `l` (at any start index). -/
def noOcc (P l : List Char) : Bool :=
  (List.range l.length).all fun i => !(isPre P (l.drop i))

/-- Index of the first occurrence of `P` in `l`, if any (Python `str.find` core). -/
def findSub (P : List Char) : List Char → Option Nat
  | [] => if isPre P [] then some 0 else none
  | c :: t => if isPre P (c :: t) then some 0 else (findSub P t).map (· + 1)

/-- Python `str.find`: first index of the pattern, `-1` when absent. -/
def pyFind (P l : List Char) : Int :=
  match findSub P l with
  | some i => (i : Int)
  | none => -1

/-- Normalization of a (possibly negative) Python slice index against length `n`. -/
def pyIdx (n : Nat) (i : Int) : Nat :=
  if i < 0 then (if i + n < 0 then 0 else (i + n).toNat) else min i.toNat n

/-- Python slice `l[a:b]` with Python's clamping of out-of-range indices. -/
def pySliceI (l : List Char) (a b : Int) : List Char :=
  (l.take (pyIdx l.length b)).drop (pyIdx l.length a)

/-- Fuel-driven worker for `splitOnSub`; one unit of fuel is spent per
consumed character, so `l.length` units always suffice. -/
def splitOnSubAux (P : List Char) : Nat → List Char → List (List Char)
  | _, [] => [[]]
  | 0, l => [l]
  | fuel + 1, c :: rest =>
    if P ≠ [] ∧ isPre P (c :: rest) = true then
      [] :: splitOnSubAux P fuel (rest.drop (P.length - 1))
    else
      match splitOnSubAux P fuel rest with
      | [] => [[c]]
      | s :: ss => (c :: s) :: ss

/-- Python `str.split(sep)` for a non-empty separator string: splits on every
non-overlapping occurrence of `P`, scanning left to right, keeping empty
chunks. -/
def splitOnSub (P l : List Char) : List (List Char) :=
  splitOnSubAux P l.length l

/-- Python `s.split(c, 1)` when it finds the separator: the text before the
first occurrence of `c` and the remainder after it; `none` when `c` is absent
(in which case `key, value = s.split(c, 1)` raises `ValueError`). -/
def split1 (c : Char) : List Char → Option (List Char × List Char)
  | [] => none
  | x :: xs =>
    if x = c then some ([], xs)
    else (split1 c xs).map fun p => (x :: p.1, p.2)

/-!
Commit extraction (`get_commits_by_date`, `src/main.py` lines 26-81).

The git sentinel tokens come from the `--pretty` format string on line 41:
`COMMIT_START%H|%an|%ad%nCOMMIT_MESSAGE_START%B%nCOMMIT_END`.
-/

/-- The `COMMIT_START` sentinel token. -/
def tokStart : List Char := ['C', 'O', 'M', 'M', 'I', 'T', '_', 'S', 'T', 'A', 'R', 'T']

/-- The `COMMIT_MESSAGE_START` sentinel token. -/
def tokMsg : List Char :=
  ['C', 'O', 'M', 'M', 'I', 'T', '_', 'M', 'E', 'S', 'S', 'A', 'G', 'E', '_',
   'S', 'T', 'A', 'R', 'T']

/-- The `COMMIT_END` sentinel token. -/
def tokEnd : List Char := ['C', 'O', 'M', 'M', 'I', 'T', '_', 'E', 'N', 'D']

/-- One parsed commit (the dict appended on lines 64-70 of `src/main.py`). -/
structure CommitRecord where
  hash : List Char
  author : List Char
  date : List Char
  message : List Char
  repo : List Char
deriving DecidableEq

/-- Parsing of one commit block (lines 56-70 of `src/main.py`): the header is
the first line of the stripped block, split on `'|'` with at most two splits;
the message is the raw slice of the block between the position right after
`COMMIT_MESSAGE_START` and the position of `COMMIT_END`, stripped.  A header
with fewer than two `'|'` separators makes the tuple unpacking raise
`ValueError`, modelled as `Except.error`. -/
def parseBlock (repoName block : List Char) : Except Unit CommitRecord :=
  let bt := trimList block
  let lines := splitOnSub ['\n'] bt
  let header := lines.headD []
  match split1 '|' header with
  | none => .error ()
  | some (hashVal, rest) =>
    match split1 '|' rest with
    | none => .error ()
    | some (author, commitDate) =>
      let messageStart : Int := pyFind tokMsg block + (tokMsg.length : Int)
      let messageEnd : Int := pyFind tokEnd block
      let message := trimList (pySliceI block messageStart messageEnd)
      .ok ⟨hashVal.take 8, author, commitDate, message, repoName⟩

/-- The parsing loop of `get_commits_by_date` (lines 51-72): strip the raw
output, split on `COMMIT_START`, drop the text before the first sentinel, and
parse every block whose stripped text is non-empty, appending the records in
order.  A `ValueError` in any block aborts the whole loop (uncaught by the
function's `except` clauses). -/
def parseGitOutput (repoName raw : List Char) : Except Unit (List CommitRecord) :=
  ((splitOnSub tokStart (trimList raw)).drop 1).foldlM
    (fun acc block =>
      if trimList block = [] then Except.ok acc
      else (parseBlock repoName block).map fun r => acc ++ [r])
    []

/-- Outcome of the external effects inside `get_commits_by_date`'s `try`
block: the `os.chdir(repo_path)` call may raise; otherwise the `git log`
subprocess either yields stdout, exits non-zero (`CalledProcessError`), or is
missing from PATH (`FileNotFoundError`). -/
inductive GitOutcome where
  | chdirFail
  | success (stdout : List Char)
  | calledProcessError (err : List Char)
  | gitNotFound
deriving DecidableEq

/-- A run of `get_commits_by_date`: the value returned (or the exception it
lets escape, as `Except.error`), together with the sequence of `os.chdir`
targets performed, in order. -/
structure ExtractRun where
  result : Except Unit (List CommitRecord)
  chdirs : List (List Char)

/-- The `os.chdir(repo_path)` performed on entry (line 31-32): only when a
repository path is given and the `chdir` itself does not raise. -/
def chdirEntry (repoPath : Option (List Char)) : List (List Char) :=
  match repoPath with
  | some p => [p]
  | none => []

/-- Model of `get_commits_by_date` (lines 26-81).  `cwd0` is the working
directory captured by `os.getcwd()` on line 28; every exit path runs the
`finally` clause (line 80-81), appending a final `chdir cwd0`.
`CalledProcessError` and `FileNotFoundError` are caught and turned into `[]`
(lines 74-79); empty stripped stdout returns `[]` (lines 47-49); otherwise the
output is parsed. -/
def get_commits_by_date (repoPath : Option (List Char)) (repoName : List Char)
    (git : GitOutcome) (cwd0 : List Char) : ExtractRun :=
  match git with
  | .chdirFail => ⟨.ok [], [cwd0]⟩
  | .calledProcessError _ => ⟨.ok [], chdirEntry repoPath ++ [cwd0]⟩
  | .gitNotFound => ⟨.ok [], chdirEntry repoPath ++ [cwd0]⟩
  | .success out =>
    ⟨if trimList out = [] then .ok []
     else parseGitOutput repoName out,
     chdirEntry repoPath ++ [cwd0]⟩

/-- The working directory after a run: the last `chdir` target, or the
starting directory when no `chdir` happened. -/
def finalCwd (cwd0 : List Char) (r : ExtractRun) : List Char :=
  r.chdirs.getLastD cwd0

/-!
Summarizer (`get_ollama_summary`, `src/main.py` lines 83-149).

The two `curl` invocations against the local Ollama endpoint are modelled by
two `CallResult` oracles: `ok resp` is a run in which the subprocess exited
zero and its stdout parsed as JSON, with `resp` the optional `response`
field; `fail err` is any exception inside the `try` block for that call
(non-zero exit, non-JSON body, parse error), carrying the exception text.
The returned pair of strings never contains the prompt text, so the prompt
bodies (lines 99-113) are opaque here; only which projects have commits
(lines 90-93) drives the control flow.  The function is generic in the
commit type since it only tests lists for emptiness.
-/

/-- Result of one `subprocess.run(curl ...)` + `json.loads` + `.get('response')`
sequence. -/
inductive CallResult where
  | ok (resp : Option String)
  | fail (err : String)
deriving DecidableEq

/-- The second component returned by `get_ollama_summary`: the Python function
returns the empty dict `{}` on the two short-circuit paths and a string
otherwise. -/
inductive PyVal where
  | emptyDict
  | str (s : String)
deriving DecidableEq

/-- The projects contributing a prompt section (line 90-93): those with a
non-empty commit list, in mapping order. -/
def promptSections {α : Type} (pc : List (List Char × List α)) :
    List (List Char × List α) :=
  pc.filter fun p => !p.2.isEmpty

/-- Model of `get_ollama_summary` (lines 83-149).  Returns the
`(concise_summary, bullet_points)` pair together with the number of HTTP
calls issued.  Both calls live inside a single `try`: a failure of the first
call returns the error pair having made one call; a failure of the second
returns the error pair having made two calls, discarding the first call's
response. -/
def get_ollama_summary {α : Type} (pc : List (List Char × List α))
    (r1 r2 : CallResult) : (String × PyVal) × Nat :=
  if pc.isEmpty then (("No commits found for today.", .emptyDict), 0)
  else if (promptSections pc).isEmpty then
    (("No commits found across all projects today.", .emptyDict), 0)
  else
    match r1 with
    | .fail e => (("Error with Ollama: " ++ e, .str ""), 1)
    | .ok resp1 =>
      let concise := resp1.getD "No response from Ollama"
      match r2 with
      | .fail e => (("Error with Ollama: " ++ e, .str ""), 2)
      | .ok resp2 => ((concise, .str (resp2.getD "No bullet points generated")), 2)

/-!
Configuration loader (`load_env`, lines 11-24) and the `main` pipeline
(lines 199-292).
-/

/-- Assignment into a Python dict as an ordered association list: an existing
key keeps its position and gets the new value, a new key is appended. -/
def dictInsert {ν : Type} (k : List Char) (v : ν) :
    List (List Char × ν) → List (List Char × ν)
  | [] => [(k, v)]
  | (k', v') :: rest =>
    if k' = k then (k, v) :: rest else (k', v') :: dictInsert k v rest

/-- Python `dict.get(key, default)`. -/
def dictGet {ν : Type} : List (List Char × ν) → List Char → ν → ν
  | [], _, v0 => v0
  | (k', v) :: rest, k, v0 => if k' = k then v else dictGet rest k v0

/-- Python `dict[key]` lookup as an `Option`. -/
def dictLookup {ν : Type} : List (List Char × ν) → List Char → Option ν
  | [], _ => none
  | (k', v) :: rest, k => if k' = k then some v else dictLookup rest k

/-- How `load_env` can fail: the `.env` file is missing (`sys.exit(1)` on
line 23), or a non-blank non-comment line has no `'='` so the unpacking
`key, value = line.split('=', 1)` raises an uncaught `ValueError`
(line 19). -/
inductive LoadErr where
  | missing
  | badLine
deriving DecidableEq

/-- Model of `load_env` (lines 11-24): `file` is the `.env` contents as a
list of lines, `none` when the file does not exist.  Each line is stripped;
blank lines and lines starting with `'#'` are skipped; every other line is
split on the first `'='` into key and value and stored in the dict. -/
def load_env (file : Option (List (List Char))) :
    Except LoadErr (List (List Char × List Char)) :=
  match file with
  | none => .error .missing
  | some fileLines =>
    fileLines.foldlM
      (fun envVars rawLine =>
        let line := trimList rawLine
        if !line.isEmpty && line.headD ' ' ≠ '#' then
          match split1 '=' line with
          | none => .error .badLine
          | some (key, value) => .ok (dictInsert key value envVars)
        else .ok envVars)
      []

/-- One iteration of the per-repository loop in `main` (lines 216-228): strip
the configured path and name, extract the commits, record them (or `[]`)
under the stripped name, and extend the flat list when commits were found. -/
def mainStep {α : Type} (extract : List Char → List Char → List α)
    (st : List (List Char × List α) × List α) (r : List Char × List Char) :
    List (List Char × List α) × List α :=
  let repoPath := trimList r.1
  let repoName := trimList r.2
  let commits := extract repoPath repoName
  if !commits.isEmpty then (dictInsert repoName commits st.1, st.2 ++ commits)
  else (dictInsert repoName ([] : List α) st.1, st.2)

/-- The whole per-repository loop of `main`: builds `project_commits` (an
ordered dict) and `all_commits` (the concatenation of every non-empty
extraction).  `extract` abstracts `get_commits_by_date` as the list of
records it returns for a given (stripped) path and name. -/
def mainLoop {α : Type} (extract : List Char → List Char → List α)
    (repos : List (List Char × List Char)) :
    List (List Char × List α) × List α :=
  repos.foldl (mainStep extract) ([], [])

/-- The `REPO_PATHS` configuration key. -/
def keyRepoPaths : List Char := ['R', 'E', 'P', 'O', '_', 'P', 'A', 'T', 'H', 'S']

/-- The `REPO_NAMES` configuration key. -/
def keyRepoNames : List Char := ['R', 'E', 'P', 'O', '_', 'N', 'A', 'M', 'E', 'S']

/-- Model of `send_email` (lines 151-197): the whole body is wrapped in
`try/except Exception`, so the caller always continues; the returned flag
records whether delivery succeeded. -/
def send_email (deliveryOk : Bool) : Bool := deliveryOk

/-- Observable outcome of one run of `main`. -/
structure MainResult where
  exitCode : Nat
  totalCommits : Nat
  ollamaCalls : Nat
  emailDelivered : Bool
deriving DecidableEq

/-- Model of `main` (lines 199-292), generic in the commit type (the name
`main` itself is reserved by Lean for executable entry points).  Parameters
abstract the external world: the `.env` file contents, the extraction results
per repository, whether SMTP delivery succeeds, whether the output file is
writable, and the two Ollama call oracles.  Exit code `1` covers both
`sys.exit(1)` and the interpreter's exit after an uncaught exception from
`load_env`. -/
def pyMain {α : Type} (file : Option (List (List Char)))
    (extract : List Char → List Char → List α)
    (emailOk writeOk : Bool) (r1 r2 : CallResult) : MainResult :=
  match load_env file with
  | .error _ => ⟨1, 0, 0, false⟩
  | .ok envVars =>
    let repoPaths := splitOnSub [','] (dictGet envVars keyRepoPaths [])
    let repoNames := splitOnSub [','] (dictGet envVars keyRepoNames [])
    if repoPaths.length ≠ repoNames.length then ⟨1, 0, 0, false⟩
    else
      let st := mainLoop extract (repoPaths.zip repoNames)
      let totalCommits := st.2.length
      let summary :=
        if totalCommits > 0 then get_ollama_summary st.1 r1 r2
        else (("No commits found across all projects today.", PyVal.str ""), 0)
      let delivered := send_email emailOk
      if writeOk then ⟨0, totalCommits, summary.2, delivered⟩
      else ⟨1, totalCommits, summary.2, delivered⟩

/-- The per-repository loop of `main` with a fallible extractor.  An
extraction result `.error ()` stands for an exception escaping
`get_commits_by_date` — the `except` clauses on lines 74-79 catch only
`CalledProcessError` and `FileNotFoundError`, so `os.chdir(repo_path)` on
line 32 raising `NotADirectoryError` or `PermissionError`, or the header
unpacking on line 58 raising `ValueError` on sentinel-corrupted output
(exactly the `.error` results of this file's `get_commits_by_date` model),
propagate out of the loop: the fold aborts at the first such repository, as
the Python loop does. -/
def mainLoopE {α : Type} (extract : List Char → List Char → Except Unit (List α))
    (repos : List (List Char × List Char)) :
    Except Unit (List (List Char × List α) × List α) :=
  repos.foldlM
    (fun st r =>
      (extract (trimList r.1) (trimList r.2)).map fun commits =>
        if !commits.isEmpty then
          (dictInsert (trimList r.2) commits st.1, st.2 ++ commits)
        else (dictInsert (trimList r.2) ([] : List α) st.1, st.2))
    ([], [])

/-- Model of `main` like `pyMain`, but with a fallible extractor: an
exception escaping `get_commits_by_date` aborts the run before the
summarizer, the email and the file write, and the interpreter exits
non-zero.  With an extractor that never raises, this coincides with
`pyMain` (`pyMainE_ok_extract`). -/
def pyMainE {α : Type} (file : Option (List (List Char)))
    (extract : List Char → List Char → Except Unit (List α))
    (emailOk writeOk : Bool) (r1 r2 : CallResult) : MainResult :=
  match load_env file with
  | .error _ => ⟨1, 0, 0, false⟩
  | .ok envVars =>
    let repoPaths := splitOnSub [','] (dictGet envVars keyRepoPaths [])
    let repoNames := splitOnSub [','] (dictGet envVars keyRepoNames [])
    if repoPaths.length ≠ repoNames.length then ⟨1, 0, 0, false⟩
    else
      match mainLoopE extract (repoPaths.zip repoNames) with
      | .error _ => ⟨1, 0, 0, false⟩
      | .ok st =>
        let totalCommits := st.2.length
        let summary :=
          if totalCommits > 0 then get_ollama_summary st.1 r1 r2
          else (("No commits found across all projects today.", PyVal.str ""), 0)
        let delivered := send_email emailOk
        if writeOk then ⟨0, totalCommits, summary.2, delivered⟩
        else ⟨1, totalCommits, summary.2, delivered⟩

/-!
Basic lemmas about the string primitives.
-/

/-- A character of the left-stripped list is a character of the list. -/
theorem mem_of_mem_trimL {a : Char} {l : List Char} (h : a ∈ trimL l) : a ∈ l := by
  induction l with
  | nil => simp [trimL] at h
  | cons c t ih =>
    by_cases hc : wsChar c
    · simp only [trimL, List.dropWhile_cons, hc, if_true] at h
      exact List.mem_cons_of_mem _ (ih h)
    · simp only [trimL, List.dropWhile_cons, hc, if_false] at h
      exact h

/-- A character of the right-stripped list is a character of the list. -/
theorem mem_of_mem_trimR {a : Char} {l : List Char} (h : a ∈ trimR l) : a ∈ l := by
  have h1 : a ∈ trimL l.reverse := List.mem_reverse.mp (by simpa [trimR] using h)
  exact List.mem_reverse.mp (mem_of_mem_trimL h1)

/-- A character of the stripped list is a character of the list. -/
theorem mem_of_mem_trimList {a : Char} {l : List Char} (h : a ∈ trimList l) : a ∈ l :=
  mem_of_mem_trimL (mem_of_mem_trimR h)

/-- `split1` finds nothing when the separator does not occur. -/
theorem split1_eq_none {c : Char} {l : List Char} (h : c ∉ l) : split1 c l = none := by
  induction l with
  | nil => rfl
  | cons x xs ih =>
    have hx : ¬x = c := fun hxc => h (hxc ▸ List.mem_cons_self x xs)
    simp [split1, hx, ih (fun hm => h (List.mem_cons_of_mem _ hm))]

/-!
Claim C10: a non-blank, non-comment `.env` line without `'='` makes
`load_env` raise an uncaught `ValueError`.
-/

/-- C10: for every configuration line that is non-blank after stripping, does
not start with `'#'`, and contains no `'='`, `load_env` neither returns a
mapping nor exits cleanly: the unpacking `key, value = line.split('=', 1)`
raises `ValueError` (modelled as the `badLine` error, distinct from the
clean `sys.exit(1)` for a missing file). -/
theorem load_env_bad_line_raises (line : List Char)
    (h1 : trimList line ≠ []) (h2 : (trimList line).headD ' ' ≠ '#')
    (h3 : ∀ c ∈ line, c ≠ '=') :
    load_env (some [line]) = .error .badLine := by
  have hne : '=' ∉ trimList line := fun hm => h3 '=' (mem_of_mem_trimList hm) rfl
  have hsplit : split1 '=' (trimList line) = none := split1_eq_none hne
  have hempty : (trimList line).isEmpty = false := by
    cases hl : trimList line with
    | nil => exact absurd hl h1
    | cons a t => rfl
  have hhead : ¬(trimList line).head?.getD ' ' = '#' := by
    cases hl : trimList line with
    | nil => exact absurd hl h1
    | cons a t =>
      rw [hl] at h2
      simpa using h2
  simp [load_env, hempty, hsplit, h1, hhead]

/-- Witness for C10 at the concrete line `"OLLAMA"`. -/
theorem load_env_bad_line_raises_witness :
    load_env (some [['O', 'L', 'L', 'A', 'M', 'A']]) = .error .badLine :=
  load_env_bad_line_raises ['O', 'L', 'L', 'A', 'M', 'A']
    (by decide) (by decide) (by decide)

/-!
Claim C6: the working directory is restored on every exit path of
`get_commits_by_date`.
-/

/-- C6: for every repository path, git outcome (normal output, tool failure,
tool missing, even a failing `chdir` into the repository), the working
directory after `get_commits_by_date` equals the working directory before the
call: the `finally` clause makes the directory change scoped. -/
theorem cwd_restored_on_every_path (repoPath : Option (List Char))
    (repoName : List Char) (git : GitOutcome) (cwd0 : List Char) :
    finalCwd cwd0 (get_commits_by_date repoPath repoName git cwd0) = cwd0 := by
  cases git <;> cases repoPath <;>
    simp [get_commits_by_date, finalCwd, chdirEntry, List.getLastD]

/-!
Claim C7: tool failure and tool-not-found both yield an empty list and no
escaping exception.
-/

/-- C7: whenever the git invocation exits non-zero (`CalledProcessError`) or
git is not on the PATH (`FileNotFoundError`), `get_commits_by_date` returns
the empty list — no exception escapes this boundary — and the working
directory is restored. -/
theorem tool_failure_returns_empty (repoPath : Option (List Char))
    (repoName : List Char) (e : List Char) (cwd0 : List Char) :
    (get_commits_by_date repoPath repoName (.calledProcessError e) cwd0).result
      = .ok [] ∧
    (get_commits_by_date repoPath repoName .gitNotFound cwd0).result = .ok [] := by
  constructor <;> cases repoPath <;> rfl

/-!
Claim C1: zero aggregated commits mean no Ollama call and a fixed message.
-/

/-- C1: when no project has any commits (including the empty mapping),
`get_ollama_summary` returns a fixed "no commits" message having issued zero
HTTP calls; and in any run of `main` whose aggregated total commit count is
zero, no text-generation call is made at all. -/
theorem summary_zero_commits_no_call :
    (∀ (α : Type) (pc : List (List Char × List α)) (r1 r2 : CallResult),
      (∀ p ∈ pc, p.2 = ([] : List α)) →
      (get_ollama_summary pc r1 r2).2 = 0 ∧
      (get_ollama_summary pc r1 r2).1.1 =
        (if pc.isEmpty then "No commits found for today."
         else "No commits found across all projects today.")) ∧
    (∀ (α : Type) (file : Option (List (List Char)))
       (extract : List Char → List Char → List α) (eo w : Bool)
       (r1 r2 : CallResult),
      (pyMain file extract eo w r1 r2).totalCommits = 0 →
      (pyMain file extract eo w r1 r2).ollamaCalls = 0) := by
  constructor
  · intro α pc r1 r2 h
    rcases eq_or_ne pc [] with hpc | hpc
    · subst hpc
      simp [get_ollama_summary]
    · have hpc' : pc.isEmpty = false := by
        cases pc with
        | nil => exact absurd rfl hpc
        | cons a t => rfl
      have hs : promptSections pc = [] := by
        simp only [promptSections]
        rw [List.filter_eq_nil_iff]
        intro a ha
        simp [h a ha]
      simp [get_ollama_summary, hs, hpc']
  · intro α file extract eo w r1 r2 h
    rcases hle : load_env file with e | envVars
    · simp [pyMain, hle]
    · simp only [pyMain, hle] at h ⊢
      by_cases hlen : (splitOnSub [','] (dictGet envVars keyRepoPaths [])).length ≠
          (splitOnSub [','] (dictGet envVars keyRepoNames [])).length
      · simp [hlen]
      · simp only [hlen, if_false] at h ⊢
        cases w <;> simp_all

/-!
Claim C2: the two Ollama calls share a single `try/except`, so they fail
together, contrary to the claim that a failure in one does not block the
other.
-/

/-- Counterexample to C2 at a concrete non-empty mapping: when the first
call fails, only one call is made (the second is never performed) and the
second call's would-be response `"OK"` is not returned. -/
theorem ollama_partial_failure_counterexample :
    (get_ollama_summary [((['P'] : List Char), ([0] : List Nat))]
      (.fail "connection refused") (.ok (some "OK"))).2 = 1 ∧
    (get_ollama_summary [((['P'] : List Char), ([0] : List Nat))]
      (.fail "connection refused") (.ok (some "OK"))).1.2 ≠ PyVal.str "OK" := by
  constructor
  · rfl
  · decide

/-- C2 (amended): both calls sit in one `try/except`.  For a mapping with at
least one non-empty project: if the first call fails, the function returns
the pair `("Error with Ollama: <reason>", "")` having made only one call; if
the first succeeds and the second fails, it returns the same error pair
after two calls, discarding the first call's successful response. -/
theorem ollama_single_try_failure :
    ∀ (α : Type) (pc : List (List Char × List α)) (e : String)
      (r2 : CallResult) (resp1 : Option String),
      (∃ p ∈ pc, p.2 ≠ ([] : List α)) →
      get_ollama_summary pc (.fail e) r2 = (("Error with Ollama: " ++ e, .str ""), 1) ∧
      get_ollama_summary pc (.ok resp1) (.fail e) =
        (("Error with Ollama: " ++ e, .str ""), 2) := by
  intro α pc e r2 resp1 h
  rcases h with ⟨p, hp, hpne⟩
  have hpc : pc ≠ [] := by rintro rfl; exact absurd hp (List.not_mem_nil p)
  have hps : promptSections pc ≠ [] := by
    intro hnil
    have : p ∈ promptSections pc := by
      simp only [promptSections, List.mem_filter]
      exact ⟨hp, by simpa using hpne⟩
    rw [hnil] at this
    exact absurd this (List.not_mem_nil p)
  constructor <;> simp [get_ollama_summary, hpc, hps]

/-- Witness for the amended C2 at a concrete mapping. -/
theorem ollama_single_try_failure_witness :
    get_ollama_summary [((['P'] : List Char), ([0] : List Nat))]
      (.fail "boom") (.ok (some "OK")) = (("Error with Ollama: boom", .str ""), 1) ∧
    get_ollama_summary [((['P'] : List Char), ([0] : List Nat))]
      (.ok (some "fine")) (.fail "boom") = (("Error with Ollama: boom", .str ""), 2) :=
  ollama_single_try_failure Nat [(['P'], [0])] "boom" (.ok (some "OK")) (some "fine")
    (by decide)

/-- Witness for C1: a mapping whose single project has no commits yields zero
calls, and a concrete `main` run with zero total commits makes zero calls. -/
theorem summary_zero_commits_no_call_witness :
    (get_ollama_summary [((['P'] : List Char), ([] : List Nat))]
      (.ok none) (.ok none)).2 = 0 ∧
    (pyMain (some []) (fun _ _ => ([] : List Nat)) true true
      (.ok none) (.ok none)).ollamaCalls = 0 :=
  ⟨(summary_zero_commits_no_call.1 Nat [(['P'], [])] (.ok none) (.ok none)
      (by decide)).1,
   summary_zero_commits_no_call.2 Nat (some []) (fun _ _ => []) true true
      (.ok none) (.ok none) (by decide)⟩

/-!
Lemmas about the per-repository loop of `main`.
-/

/-- The two branches of the loop body coincide up to the printed output: the
dict always receives the extraction result (possibly `[]`), and the flat list
is extended by it (extending by `[]` is a no-op). -/
theorem mainStep_eq {α : Type} (ex : List Char → List Char → List α)
    (st : List (List Char × List α) × List α) (r : List Char × List Char) :
    mainStep ex st r =
      (dictInsert (trimList r.2) (ex (trimList r.1) (trimList r.2)) st.1,
       st.2 ++ ex (trimList r.1) (trimList r.2)) := by
  unfold mainStep
  cases hc : ex (trimList r.1) (trimList r.2) with
  | nil => simp [hc]
  | cons a t => simp [hc]

/-- Inserting a fresh key into a Python dict appends it. -/
theorem dictInsert_not_mem {ν : Type} (k : List Char) (v : ν)
    (d : List (List Char × ν)) (h : k ∉ d.map Prod.fst) :
    dictInsert k v d = d ++ [(k, v)] := by
  induction d with
  | nil => rfl
  | cons p rest ih =>
    simp only [List.map_cons, List.mem_cons] at h
    push_neg at h
    have hne : p.1 ≠ k := fun he => h.1 he.symm
    cases p with
    | mk pk pv =>
      simp only [dictInsert, if_neg hne]
      rw [ih h.2]
      simp

/-- Looking up after a dict assignment. -/
theorem dictLookup_dictInsert {ν : Type} (k k' : List Char) (v : ν)
    (d : List (List Char × ν)) :
    dictLookup (dictInsert k v d) k' = if k = k' then some v else dictLookup d k' := by
  induction d with
  | nil => simp [dictInsert, dictLookup]
  | cons p rest ih =>
    cases p with
    | mk pk pv =>
      by_cases hpk : pk = k
      · subst hpk
        simp only [dictInsert, if_pos rfl, dictLookup]
        by_cases hk' : pk = k' <;> simp [hk', dictLookup]
      · simp only [dictInsert, if_neg hpk, dictLookup]
        by_cases hk' : pk = k'
        · have hkk : ¬k = k' := fun he => hpk (hk'.trans he.symm)
          simp [hk', hkk]
        · simp [hk', ih]

/-- The last element of a list satisfying a predicate, as the Python loop's
"later assignment wins" semantics. -/
def lastMatch {β : Type} (p : β → Bool) : List β → Option β
  | [] => none
  | x :: xs =>
    match lastMatch p xs with
    | some y => some y
    | none => if p x then some x else none

/-- After the per-repository loop, the value stored under a key comes from the
last configured repository whose stripped name equals that key. -/
theorem dictLookup_mainLoop_fold {α : Type} (ex : List Char → List Char → List α)
    (k : List Char) :
    ∀ (repos : List (List Char × List Char)) (d : List (List Char × List α))
      (all : List α),
    dictLookup ((repos.foldl (mainStep ex) (d, all)).1) k =
      (match lastMatch (fun r => trimList r.2 == k) repos with
       | some r => some (ex (trimList r.1) (trimList r.2))
       | none => dictLookup d k) := by
  intro repos
  induction repos with
  | nil => intro d all; simp [lastMatch]
  | cons r rest ih =>
    intro d all
    rw [List.foldl_cons, mainStep_eq, ih]
    cases hm : lastMatch (fun r => trimList r.2 == k) rest with
    | some r' => simp [lastMatch, hm]
    | none =>
      simp only [lastMatch, hm]
      rw [dictLookup_dictInsert]
      by_cases hk : trimList r.2 = k
      · simp [hk]
      · simp [hk]

/-- The flat `all_commits` list accumulates every extraction, duplicated
names included. -/
theorem mainLoop_fold_length {α : Type} (ex : List Char → List Char → List α) :
    ∀ (repos : List (List Char × List Char)) (d : List (List Char × List α))
      (all : List α),
    ((repos.foldl (mainStep ex) (d, all)).2).length =
      all.length + (repos.map fun r => (ex (trimList r.1) (trimList r.2)).length).sum := by
  intro repos
  induction repos with
  | nil => intro d all; simp
  | cons r rest ih =>
    intro d all
    rw [List.foldl_cons, mainStep_eq, ih]
    simp [List.length_append]
    omega

/-- The per-repository fold with pairwise-distinct stripped names appends one
entry per repository, in configured order. -/
theorem mainLoop_fold_nodup {α : Type} (ex : List Char → List Char → List α) :
    ∀ (repos : List (List Char × List Char)) (d : List (List Char × List α))
      (all : List α),
    (repos.map fun r => trimList r.2).Nodup →
    (∀ r ∈ repos, trimList r.2 ∉ d.map Prod.fst) →
    (repos.foldl (mainStep ex) (d, all)).1 =
      d ++ repos.map fun r => (trimList r.2, ex (trimList r.1) (trimList r.2)) := by
  intro repos
  induction repos with
  | nil => intro d all _ _; simp
  | cons r rest ih =>
    intro d all hnd hdisj
    rw [List.foldl_cons, mainStep_eq]
    rw [dictInsert_not_mem _ _ _ (hdisj r (List.mem_cons_self r rest))]
    rw [List.map_cons] at hnd
    have hnd' := hnd.of_cons
    have hhead : trimList r.2 ∉ rest.map fun r => trimList r.2 :=
      (List.nodup_cons.mp hnd).1
    have hdisj' : ∀ r' ∈ rest,
        trimList r'.2 ∉ (d ++ [(trimList r.2,
          ex (trimList r.1) (trimList r.2))]).map Prod.fst := by
      intro r' hr' hmem
      rw [List.map_append] at hmem
      rcases List.mem_append.mp hmem with hmem | hmem
      · exact hdisj r' (List.mem_cons_of_mem r hr') hmem
      · simp only [List.map_cons, List.map_nil, List.mem_singleton] at hmem
        exact hhead (hmem ▸ List.mem_map_of_mem (fun r => trimList r.2) hr')
    rw [ih _ _ hnd' hdisj']
    simp [List.append_assoc]

/-!
Claim C5: after the loop, every configured (stripped) repository name is a
key, empty extractions included, in configured order.
-/

/-- C5: when the configured repositories have pairwise-distinct stripped
display names, the per-project mapping built by `main`'s loop is exactly one
entry per configured repository, in list order, keyed by the stripped name
and holding that repository's extraction result (the empty list when the
extraction returned no commits). -/
theorem project_mapping_complete_ordered {α : Type}
    (ex : List Char → List Char → List α)
    (repos : List (List Char × List Char))
    (hnd : (repos.map fun r => trimList r.2).Nodup) :
    (mainLoop ex repos).1 =
      repos.map fun r => (trimList r.2, ex (trimList r.1) (trimList r.2)) := by
  have h := mainLoop_fold_nodup ex repos [] [] hnd (by intro r _ h; simp at h)
  simpa [mainLoop] using h

/-- Witness for C5 at a two-repository configuration, one of which extracts
nothing. -/
theorem project_mapping_complete_ordered_witness :
    ((['a'] : List Char), (['A'] : List Char)) ∈
      [((['a'] : List Char), (['A'] : List Char)), (['b'], ['B'])] ∧
    (mainLoop (fun p _ => if p = ['a'] then [(0 : Nat)] else [])
        [(['a'], ['A']), (['b'], ['B'])]).1 =
      [(['A'], [0]), (['B'], [])] := by
  refine ⟨by decide, ?_⟩
  have h := project_mapping_complete_ordered
    (fun p _ => if p = ['a'] then [(0 : Nat)] else [])
    [(['a'], ['A']), (['b'], ['B'])] (by decide)
  rw [h]
  decide

/-!
Claim C9: duplicate display names — later repository replaces the earlier
one's entry, but the total still counts both.
-/

/-- C9: the mapping stores, under each key, the extraction of the last
configured repository with that stripped name (later replaces earlier); the
flat commit list counts every configured repository's extraction; hence with
two same-named repositories both extracting a commit, the reported total
exceeds the sum of the per-project counts in the mapping. -/
theorem duplicate_name_last_wins_total_counts_both :
    (∀ (α : Type) (ex : List Char → List Char → List α)
       (repos : List (List Char × List Char)) (k : List Char),
      dictLookup (mainLoop ex repos).1 k =
        (match lastMatch (fun r => trimList r.2 == k) repos with
         | some r => some (ex (trimList r.1) (trimList r.2))
         | none => none)) ∧
    (∀ (α : Type) (ex : List Char → List Char → List α)
       (repos : List (List Char × List Char)),
      ((mainLoop ex repos).2).length =
        (repos.map fun r => (ex (trimList r.1) (trimList r.2)).length).sum) ∧
    (((mainLoop (fun _ _ => [(0 : Nat)])
        [((['a'] : List Char), (['N'] : List Char)), (['b'], ['N'])]).2).length >
      (((mainLoop (fun _ _ => [(0 : Nat)])
        [((['a'] : List Char), (['N'] : List Char)), (['b'], ['N'])]).1).map
          fun p => p.2.length).sum) := by
  refine ⟨?_, ?_, ?_⟩
  · intro α ex repos k
    have h := dictLookup_mainLoop_fold ex k repos [] []
    simpa [mainLoop, dictLookup] using h
  · intro α ex repos
    have h := mainLoop_fold_length ex repos [] []
    simpa [mainLoop] using h
  · decide

/-!
Claim C8: exit codes.  The claim's list of non-zero conditions is incomplete:
besides a malformed configuration line (claim C10), an exception escaping
`get_commits_by_date` — `os.chdir` raising `NotADirectoryError` or
`PermissionError` on line 32, or the header unpacking on line 58 raising
`ValueError` on sentinel-corrupted output, none of which lines 74-79 catch —
aborts `main` with a non-zero exit even though the configuration file exists,
the repository lists match, and no write failure occurred.
-/

/-- With an extractor that never raises, the fallible loop returns exactly
the infallible loop's state. -/
theorem mainLoopE_ok_extract {α : Type} (ex : List Char → List Char → List α) :
    ∀ (repos : List (List Char × List Char)),
    mainLoopE (fun p n => Except.ok (ex p n)) repos =
      Except.ok (mainLoop ex repos) := by
  have hgen : ∀ (repos : List (List Char × List Char))
      (st : List (List Char × List α) × List α),
      repos.foldlM
        (fun st r =>
          ((fun p n => (Except.ok (ex p n) : Except Unit (List α)))
              (trimList r.1) (trimList r.2)).map fun commits =>
            if !commits.isEmpty then
              (dictInsert (trimList r.2) commits st.1, st.2 ++ commits)
            else (dictInsert (trimList r.2) ([] : List α) st.1, st.2)) st =
        Except.ok (repos.foldl (mainStep ex) st) := by
    intro repos
    induction repos with
    | nil => intro st; rfl
    | cons r rest ih => intro st; exact ih (mainStep ex st r)
  intro repos
  exact hgen repos ([], [])

/-- With an extractor that never raises, `pyMainE` coincides with `pyMain`:
the fallible model refines the infallible one. -/
theorem pyMainE_ok_extract {α : Type} (file : Option (List (List Char)))
    (ex : List Char → List Char → List α) (eo w : Bool) (r1 r2 : CallResult) :
    pyMainE file (fun p n => Except.ok (ex p n)) eo w r1 r2 =
      pyMain file ex eo w r1 r2 := by
  rcases hle : load_env file with e | envVars
  · simp [pyMainE, pyMain, hle]
  · simp [pyMainE, pyMain, hle, mainLoopE_ok_extract]

/-- Counterexample to C8 as stated: a run whose configuration file exists
and loads, whose repository lists split into equally many entries, and whose
email delivery and file write both succeed, still exits non-zero when the
extraction raises an uncaught exception (`os.chdir` failing with
`NotADirectoryError`/`PermissionError`, or `ValueError` from a corrupted
header) — a non-zero exit beyond the claim's "missing configuration file,
mismatched list lengths, or write failure". -/
theorem exit_code_counterexample :
    (pyMainE (some [keyRepoPaths ++ ['=', 'a'], keyRepoNames ++ ['=', 'X']])
      (fun _ _ => (Except.error () : Except Unit (List Nat))) true true
      (.ok none) (.ok none)).exitCode = 1 ∧
    load_env (some [keyRepoPaths ++ ['=', 'a'], keyRepoNames ++ ['=', 'X']]) =
      .ok [(keyRepoPaths, ['a']), (keyRepoNames, ['X'])] ∧
    (splitOnSub [','] ['a']).length = (splitOnSub [','] ['X']).length :=
  ⟨rfl, rfl, rfl⟩

/-- C8 (amended): the process exits `0` exactly when the configuration file
loads (it exists and every effective line has an `'='`), `REPO_PATHS` and
`REPO_NAMES` split into equally many entries, no exception escapes
`get_commits_by_date` for any configured repository, and the output-file
write succeeds.  Email failure and a zero total commit count never affect
the exit code. -/
theorem exit_code_amended {α : Type} (file : Option (List (List Char)))
    (extract : List Char → List Char → Except Unit (List α))
    (eo w : Bool) (r1 r2 : CallResult) :
    (pyMainE file extract eo w r1 r2).exitCode = 0 ↔
      ((∃ envVars, load_env file = .ok envVars ∧
         (splitOnSub [','] (dictGet envVars keyRepoPaths [])).length =
           (splitOnSub [','] (dictGet envVars keyRepoNames [])).length ∧
         (∃ st, mainLoopE extract
             ((splitOnSub [','] (dictGet envVars keyRepoPaths [])).zip
               (splitOnSub [','] (dictGet envVars keyRepoNames []))) =
           Except.ok st)) ∧
       w = true) := by
  rcases hle : load_env file with e | envVars
  · simp [pyMainE, hle]
  · simp only [pyMainE, hle]
    by_cases hlen : (splitOnSub [','] (dictGet envVars keyRepoPaths [])).length ≠
        (splitOnSub [','] (dictGet envVars keyRepoNames [])).length
    · simp [hlen]
    · push_neg at hlen
      rcases hml : mainLoopE extract
          ((splitOnSub [','] (dictGet envVars keyRepoPaths [])).zip
            (splitOnSub [','] (dictGet envVars keyRepoNames []))) with e' | st
      · simp [hml, hlen]
      · cases w with
        | false => simp [hml, hlen]
        | true =>
          simp [hml, hlen]
          exact ⟨st.1, st.2, rfl⟩

/-!
Occurrence lemmas for the sentinel-based parsing proofs.
-/

/-- A list is a prefix of itself followed by anything. -/
theorem isPre_append_self (P r : List Char) : isPre P (P ++ r) = true := by
  induction P with
  | nil => rfl
  | cons p ps ih => simp [isPre, ih]

/-- Extending the scanned list to the right preserves a prefix match. -/
theorem isPre_extend {P d : List Char} (z : List Char) (h : isPre P d = true) :
    isPre P (d ++ z) = true := by
  induction P generalizing d with
  | nil => rfl
  | cons p ps ih =>
    cases d with
    | nil => exact absurd h (by simp [isPre])
    | cons c t =>
      simp only [isPre, Bool.and_eq_true, decide_eq_true_eq] at h
      simp [isPre, h.1, ih h.2]

/-- A prefix check only looks at the first `P.length` characters. -/
theorem isPre_append_left {P x : List Char} (y : List Char)
    (h : P.length ≤ x.length) : isPre P (x ++ y) = isPre P x := by
  induction P generalizing x with
  | nil => rfl
  | cons p ps ih =>
    cases x with
    | nil => simp at h
    | cons c t =>
      simp only [List.length_cons, Nat.succ_le_succ_iff] at h
      simp [isPre, ih h]

/-- A matched prefix pins down the scanned list's first characters. -/
theorem isPre_getElem {P l : List Char} (h : isPre P l = true) :
    ∀ j < P.length, P[j]? = l[j]? := by
  induction P generalizing l with
  | nil => intro j hj; simp at hj
  | cons p ps ih =>
    cases l with
    | nil => exact absurd h (by simp [isPre])
    | cons c t =>
      simp only [isPre, Bool.and_eq_true, decide_eq_true_eq] at h
      intro j hj
      cases j with
      | zero => simp [h.1]
      | succ j' =>
        simp only [List.length_cons, Nat.succ_lt_succ_iff] at hj
        simpa using ih h.2 j' hj

/-- A non-empty pattern is not a prefix of the empty list. -/
theorem isPre_nil_false {P : List Char} (hP : P ≠ []) : isPre P [] = false := by
  cases P with
  | nil => exact absurd rfl hP
  | cons p ps => rfl

/-- Unfolding `noOcc` into per-index absence of prefix matches. -/
theorem noOcc_iff {P l : List Char} :
    noOcc P l = true ↔ ∀ i < l.length, isPre P (l.drop i) = false := by
  simp [noOcc, List.all_eq_true, List.mem_range]

/-- `noOcc` of a non-empty pattern extends past the end of the list. -/
theorem noOcc_all {P l : List Char} (hP : P ≠ []) (h : noOcc P l = true) :
    ∀ i, isPre P (l.drop i) = false := by
  intro i
  by_cases hi : i < l.length
  · exact noOcc_iff.mp h i hi
  · rw [List.drop_eq_nil_of_le (Nat.le_of_not_lt hi)]
    exact isPre_nil_false hP

/-- A match whose window covers the position of the distinguished character
`c` forces `c` to be a character of the pattern. -/
theorem occ_covers_char {P x y : List Char} {c : Char} {i : Nat}
    (h : isPre P ((x ++ c :: y).drop i) = true)
    (h1 : i ≤ x.length) (h2 : x.length < i + P.length) : c ∈ P := by
  have hj : x.length - i < P.length := by omega
  have hPc := isPre_getElem h (x.length - i) hj
  rw [List.getElem?_drop] at hPc
  have hidx : i + (x.length - i) = x.length := by omega
  rw [hidx] at hPc
  have hcl : (x ++ c :: y)[x.length]? = some c := by
    rw [List.getElem?_append_right (Nat.le_refl _)]
    simp
  rw [hcl] at hPc
  exact List.getElem?_mem hPc

/-- Inside `X ++ c :: r` with `c` not a pattern character and no occurrence
inside `X`, no match can start at any index up to and including `X.length`. -/
theorem noOcc_append_sep {P X : List Char} {c : Char} (r : List Char)
    (hP : P ≠ []) (hX : noOcc P X = true) (hc : c ∉ P) :
    ∀ i < X.length + 1, isPre P ((X ++ c :: r).drop i) = false := by
  have hPlen : 1 ≤ P.length := by
    cases P with
    | nil => exact absurd rfl hP
    | cons a t => simp
  intro i hi
  by_cases hcase : i + P.length ≤ X.length
  · have hdrop : (X ++ c :: r).drop i = X.drop i ++ c :: r := by
      rw [List.drop_append_eq_append_drop]
      have : i - X.length = 0 := by omega
      rw [this]
      simp
    rw [hdrop]
    have hlen : P.length ≤ (X.drop i).length := by
      rw [List.length_drop]; omega
    rw [isPre_append_left _ hlen]
    exact noOcc_iff.mp hX i (by omega)
  · by_cases habs : isPre P ((X ++ c :: r).drop i) = true
    · exact absurd (occ_covers_char habs (by omega) (by omega)) hc
    · simpa using habs

/-- Before a literal occurrence of a border-free pattern, no earlier match can
start inside the preceding text `X`: a window fully inside `X` contradicts
`noOcc`, and a window spanning into the literal occurrence would exhibit a
non-trivial border of the pattern. -/
theorem noOcc_before_self {P X : List Char} (tail : List Char)
    (hP : P ≠ []) (hX : noOcc P X = true)
    (hb : ∀ s, 0 < s → s < P.length →
      ∃ j, j < P.length - s ∧ P[s + j]? ≠ P[j]?) :
    ∀ i < X.length, isPre P ((X ++ P ++ tail).drop i) = false := by
  have hPlen : 1 ≤ P.length := by
    cases P with
    | nil => exact absurd rfl hP
    | cons a t => simp
  intro i hi
  by_cases hcase : i + P.length ≤ X.length
  · have hdrop : (X ++ P ++ tail).drop i = X.drop i ++ (P ++ tail) := by
      rw [List.append_assoc, List.drop_append_eq_append_drop]
      have h0 : i - X.length = 0 := by omega
      rw [h0]
      simp
    rw [hdrop]
    have hlen : P.length ≤ (X.drop i).length := by
      rw [List.length_drop]; omega
    rw [isPre_append_left _ hlen]
    exact noOcc_iff.mp hX i (by omega)
  · by_cases habs : isPre P ((X ++ P ++ tail).drop i) = true
    · exfalso
      have hs1 : 0 < X.length - i := by omega
      have hs2 : X.length - i < P.length := by omega
      obtain ⟨j, hj, hne⟩ := hb (X.length - i) hs1 hs2
      apply hne
      have hleft := isPre_getElem habs ((X.length - i) + j) (by omega)
      rw [List.getElem?_drop] at hleft
      have hidx : i + (X.length - i + j) = X.length + j := by omega
      rw [hidx] at hleft
      have hr : (X ++ P ++ tail)[X.length + j]? = P[j]? := by
        rw [List.append_assoc, List.getElem?_append_right (by omega)]
        have h0 : X.length + j - X.length = j := by omega
        rw [h0, List.getElem?_append, if_pos (by omega)]
      rw [hr] at hleft
      exact hleft
    · simpa using habs

/-- Characterization of `findSub`: a match at `k` with no match before it. -/
theorem findSub_eq_of {P : List Char} :
    ∀ (l : List Char) (k : Nat),
    isPre P (l.drop k) = true →
    (∀ i < k, isPre P (l.drop i) = false) →
    findSub P l = some k := by
  intro l
  induction l with
  | nil =>
    intro k hk hbefore
    cases k with
    | zero => simp only [List.drop_nil] at hk; simp [findSub, hk]
    | succ k' =>
      simp only [List.drop_nil] at hk
      have h0 := hbefore 0 (Nat.succ_pos k')
      simp only [List.drop_nil] at h0
      rw [h0] at hk
      exact absurd hk (by simp)
  | cons c t ih =>
    intro k hk hbefore
    cases k with
    | zero =>
      simp only [List.drop_zero] at hk
      simp [findSub, hk]
    | succ k' =>
      have h0 := hbefore 0 (Nat.succ_pos k')
      simp only [List.drop_zero] at h0
      have ht : findSub P t = some k' := by
        apply ih
        · simpa using hk
        · intro i hi
          have := hbefore (i + 1) (by omega)
          simpa using this
      simp [findSub, h0, ht]

/-- `splitOnSubAux` on the empty list, any fuel. -/
theorem splitOnSubAux_nil (P : List Char) (fuel : Nat) :
    splitOnSubAux P fuel [] = [[]] := by
  cases fuel <;> rfl

/-- Fuel irrelevance for `splitOnSubAux` above the list length. -/
theorem splitOnSubAux_fuel (P : List Char) :
    ∀ (f₁ f₂ : Nat) (l : List Char), l.length ≤ f₁ → l.length ≤ f₂ →
    splitOnSubAux P f₁ l = splitOnSubAux P f₂ l := by
  intro f₁
  induction f₁ with
  | zero =>
    intro f₂ l h1 _
    have : l = [] := List.length_eq_zero.mp (Nat.le_zero.mp h1)
    subst this
    rw [splitOnSubAux_nil, splitOnSubAux_nil]
  | succ f ih =>
    intro f₂ l h1 h2
    cases l with
    | nil => rw [splitOnSubAux_nil, splitOnSubAux_nil]
    | cons c rest =>
      cases f₂ with
      | zero => simp at h2
      | succ f' =>
        simp only [List.length_cons, Nat.succ_le_succ_iff] at h1 h2
        show (if P ≠ [] ∧ isPre P (c :: rest) = true then
            [] :: splitOnSubAux P f (rest.drop (P.length - 1))
          else
            match splitOnSubAux P f rest with
            | [] => [[c]]
            | s :: ss => (c :: s) :: ss) =
          (if P ≠ [] ∧ isPre P (c :: rest) = true then
            [] :: splitOnSubAux P f' (rest.drop (P.length - 1))
          else
            match splitOnSubAux P f' rest with
            | [] => [[c]]
            | s :: ss => (c :: s) :: ss)
      
        by_cases hc : P ≠ [] ∧ isPre P (c :: rest) = true
        · rw [if_pos hc, if_pos hc]
          have hd : (rest.drop (P.length - 1)).length ≤ f := by
            rw [List.length_drop]; omega
          have hd' : (rest.drop (P.length - 1)).length ≤ f' := by
            rw [List.length_drop]; omega
          rw [ih f' _ hd hd']
        · rw [if_neg hc, if_neg hc]
          rw [ih f' rest h1 h2]

/-- Unfolding `splitOnSub` at a separator match. -/
theorem splitOnSub_cons_pos {P : List Char} {c : Char} {t : List Char}
    (hP : P ≠ []) (h : isPre P (c :: t) = true) :
    splitOnSub P (c :: t) = [] :: splitOnSub P (t.drop (P.length - 1)) := by
  show splitOnSubAux P (c :: t).length (c :: t) = _
  rw [List.length_cons]
  show (if P ≠ [] ∧ isPre P (c :: t) = true then
      [] :: splitOnSubAux P t.length (t.drop (P.length - 1))
    else
      match splitOnSubAux P t.length t with
      | [] => [[c]]
      | s :: ss => (c :: s) :: ss) = _
  rw [if_pos ⟨hP, h⟩]
  rw [splitOnSubAux_fuel P t.length (t.drop (P.length - 1)).length _
    (by rw [List.length_drop]; omega) (Nat.le_refl _)]
  rfl

/-- Unfolding `splitOnSub` at a non-matching head character. -/
theorem splitOnSub_cons_neg {P : List Char} {c : Char} {t : List Char}
    (h : isPre P (c :: t) = false) :
    splitOnSub P (c :: t) =
      match splitOnSub P t with
      | [] => [[c]]
      | s :: ss => (c :: s) :: ss := by
  show splitOnSubAux P (c :: t).length (c :: t) = _
  rw [List.length_cons]
  show (if P ≠ [] ∧ isPre P (c :: t) = true then
      [] :: splitOnSubAux P t.length (t.drop (P.length - 1))
    else
      match splitOnSubAux P t.length t with
      | [] => [[c]]
      | s :: ss => (c :: s) :: ss) = _
  rw [if_neg (by simp [h])]
  rfl

/-- Splitting right at a leading separator occurrence. -/
theorem splitOnSub_sep {P : List Char} (hP : P ≠ []) (b : List Char) :
    splitOnSub P (P ++ b) = [] :: splitOnSub P b := by
  cases hPc : P with
  | nil => exact absurd hPc hP
  | cons p ps =>
    rw [← hPc]
    have hPb : P ++ b = p :: (ps ++ b) := by rw [hPc]; rfl
    rw [hPb]
    rw [splitOnSub_cons_pos hP (by rw [← hPb]; exact isPre_append_self P b)]
    have hlen : P.length - 1 = ps.length := by rw [hPc]; simp
    rw [hlen, List.drop_left]

/-- A chunk without separator occurrences passes through the split whole. -/
theorem splitOnSub_no_occ_prefix {P : List Char} :
    ∀ (a t : List Char) (s : List Char) (ss : List (List Char)),
    (∀ i < a.length, isPre P ((a ++ t).drop i) = false) →
    splitOnSub P t = s :: ss →
    splitOnSub P (a ++ t) = (a ++ s) :: ss := by
  intro a
  induction a with
  | nil =>
    intro t s ss _ ht
    simpa using ht
  | cons c a' ih =>
    intro t s ss h ht
    have h0 : isPre P (c :: (a' ++ t)) = false := by
      have := h 0 (by simp)
      simpa using this
    have hrest : splitOnSub P (a' ++ t) = (a' ++ s) :: ss := by
      apply ih t s ss ?_ ht
      intro i hi
      have := h (i + 1) (by simpa using Nat.succ_lt_succ hi)
      simpa using this
    rw [List.cons_append, splitOnSub_cons_neg h0, hrest]
    rfl

/-- A separator-free list survives the split as its only chunk. -/
theorem splitOnSub_no_occ {P l : List Char}
    (h : noOcc P l = true) : splitOnSub P l = [l] := by
  have h0 : splitOnSub P ([] : List Char) = [] :: [] := rfl
  have hpre : ∀ i < l.length, isPre P ((l ++ []).drop i) = false := by
    intro i hi
    rw [List.append_nil]
    exact noOcc_iff.mp h i hi
  have h2 := splitOnSub_no_occ_prefix l [] [] [] hpre h0
  simpa using h2

/-!
Strip lemmas.
-/

/-- `lstrip` keeps a list whose head is not whitespace. -/
theorem trimL_cons_neg {c : Char} (t : List Char) (hc : wsChar c = false) :
    trimL (c :: t) = c :: t := by
  simp [trimL, List.dropWhile_cons, hc]

/-- `rstrip` keeps a list whose last character is not whitespace. -/
theorem trimR_append_end (x : List Char) {c : Char} (hc : wsChar c = false) :
    trimR (x ++ [c]) = x ++ [c] := by
  simp only [trimR, List.reverse_append, List.reverse_cons, List.reverse_nil,
    List.nil_append, List.cons_append, List.nil_append]
  rw [trimL_cons_neg _ hc]
  simp

/-- `rstrip` drops a trailing whitespace character. -/
theorem trimR_append_ws (x : List Char) {c : Char} (hc : wsChar c = true) :
    trimR (x ++ [c]) = trimR x := by
  simp only [trimR, List.reverse_append, List.reverse_cons, List.reverse_nil,
    List.nil_append, List.cons_append, List.nil_append]
  simp [trimL, List.dropWhile_cons, hc]

/-- `lstrip` is a drop. -/
theorem trimL_eq_drop (l : List Char) : ∃ j, trimL l = l.drop j := by
  induction l with
  | nil => exact ⟨0, rfl⟩
  | cons c t ih =>
    by_cases hc : wsChar c
    · obtain ⟨j, hj⟩ := ih
      exact ⟨j + 1, by simp [trimL, List.dropWhile_cons, hc] at hj ⊢; simpa using hj⟩
    · exact ⟨0, by simp [trimL, List.dropWhile_cons, hc]⟩

/-- A list is some prefix plus its `lstrip`. -/
theorem trimL_decomp (l : List Char) : ∃ z, l = z ++ trimL l := by
  obtain ⟨j, hj⟩ := trimL_eq_drop l
  exact ⟨l.take j, by rw [hj, List.take_append_drop]⟩

/-- A list is its `rstrip` plus some suffix. -/
theorem trimR_decomp (l : List Char) : ∃ z, l = trimR l ++ z := by
  obtain ⟨j, hj⟩ := trimL_eq_drop l.reverse
  refine ⟨(l.reverse.take j).reverse, ?_⟩
  have h1 : l.reverse = l.reverse.take j ++ trimL l.reverse := by
    rw [hj, List.take_append_drop]
  have h2 : l = (trimL l.reverse).reverse ++ (l.reverse.take j).reverse := by
    calc l = l.reverse.reverse := by rw [List.reverse_reverse]
    _ = (l.reverse.take j ++ trimL l.reverse).reverse := by rw [← h1]
    _ = (trimL l.reverse).reverse ++ (l.reverse.take j).reverse := by
        rw [List.reverse_append]
  exact h2

/-- No pattern occurrence in a list means none in any right part of it. -/
theorem noOcc_append_elim_right {P x y : List Char} (hP : P ≠ [])
    (h : noOcc P (x ++ y) = true) : noOcc P y = true := by
  rw [noOcc_iff]
  intro i hi
  have := noOcc_all hP h (x.length + i)
  rw [List.drop_append_eq_append_drop] at this
  have h0 : x.length + i - x.length = i := by omega
  have h1 : x.drop (x.length + i) = [] := List.drop_eq_nil_of_le (by omega)
  rw [h0, h1, List.nil_append] at this
  exact this

/-- No pattern occurrence in a list means none in any left part of it. -/
theorem noOcc_append_elim_left {P x y : List Char} (hP : P ≠ [])
    (h : noOcc P (x ++ y) = true) : noOcc P x = true := by
  rw [noOcc_iff]
  intro i hi
  by_cases habs : isPre P (x.drop i) = true
  · have hext : isPre P (x.drop i ++ y) = true := isPre_extend y habs
    have hdrop : (x ++ y).drop i = x.drop i ++ y := by
      rw [List.drop_append_eq_append_drop]
      have h0 : i - x.length = 0 := by omega
      rw [h0]
      simp
    have := noOcc_all hP h i
    rw [hdrop] at this
    rw [this] at hext
    exact absurd hext (by simp)
  · simpa using habs

/-- Stripping preserves the absence of a pattern. -/
theorem noOcc_trimList {P l : List Char} (hP : P ≠ [])
    (h : noOcc P l = true) : noOcc P (trimList l) = true := by
  have h1 : noOcc P (trimL l) = true := by
    obtain ⟨z, hz⟩ := trimL_decomp l
    exact noOcc_append_elim_right hP (hz ▸ h)
  obtain ⟨z, hz⟩ := trimR_decomp (trimL l)
  exact noOcc_append_elim_left hP (hz ▸ h1)

/-!
Slice, header-split, and membership lemmas.
-/

/-- Taking up to the end of the middle part and dropping the front recovers
the middle part. -/
theorem slice_mid (x m y : List Char) :
    ((x ++ m ++ y).take (x.length + m.length)).drop x.length = m := by
  rw [List.append_assoc, List.take_append_eq_append_take]
  have h1 : x.take (x.length + m.length) = x :=
    List.take_of_length_le (by omega)
  have h2 : x.length + m.length - x.length = m.length := by omega
  rw [h1, h2, List.take_append_eq_append_take]
  have h3 : m.take m.length = m := List.take_of_length_le (Nat.le_refl _)
  have h4 : m.length - m.length = 0 := by omega
  rw [h3, h4]
  simp [List.drop_left]

/-- `split1` at the first literal separator when the front part avoids it. -/
theorem split1_append {c : Char} :
    ∀ (x : List Char) (r : List Char), c ∉ x →
    split1 c (x ++ c :: r) = some (x, r) := by
  intro x
  induction x with
  | nil => intro r _; simp [split1]
  | cons a t ih =>
    intro r h
    have ha : ¬a = c := fun he => h (he ▸ List.mem_cons_self a t)
    have ht : c ∉ t := fun hm => h (List.mem_cons_of_mem a hm)
    simp [split1, ha, ih r ht]

/-- A single-character pattern cannot match inside a stretch that avoids the
character. -/
theorem isPre_singleton_absent {ch : Char} {x : List Char} (r : List Char)
    (h : ∀ a ∈ x, a ≠ ch) :
    ∀ i < x.length, isPre [ch] ((x ++ r).drop i) = false := by
  intro i hi
  by_cases habs : isPre [ch] ((x ++ r).drop i) = true
  · exfalso
    have hg := isPre_getElem habs 0 (by simp)
    rw [List.getElem?_drop] at hg
    have hx : (x ++ r)[i + 0]? = x[i]? := by
      rw [List.getElem?_append, if_pos (by omega)]
      simp
    rw [hx] at hg
    simp only [List.getElem?_cons_zero] at hg
    have hmem : ch ∈ x := List.getElem?_mem hg.symm
    exact h ch hmem rfl
  · simpa using habs

/-- A non-whitespace character survives `lstrip`. -/
theorem mem_trimL_of {a : Char} {l : List Char} (h : a ∈ l)
    (ha : wsChar a = false) : a ∈ trimL l := by
  induction l with
  | nil => simp at h
  | cons c t ih =>
    by_cases hc : wsChar c
    · rcases List.mem_cons.mp h with he | hm
      · exact absurd (he ▸ hc) (by simp [ha])
      · simpa [trimL, List.dropWhile_cons, hc] using ih hm
    · simpa [trimL, List.dropWhile_cons, hc] using h

/-- A non-whitespace character survives `rstrip`. -/
theorem mem_trimR_of {a : Char} {l : List Char} (h : a ∈ l)
    (ha : wsChar a = false) : a ∈ trimR l := by
  have h1 : a ∈ trimL l.reverse := mem_trimL_of (List.mem_reverse.mpr h) ha
  simpa [trimR] using List.mem_reverse.mpr h1

/-- A non-whitespace character survives `strip`. -/
theorem mem_trimList_of {a : Char} {l : List Char} (h : a ∈ l)
    (ha : wsChar a = false) : a ∈ trimList l :=
  mem_trimR_of (mem_trimL_of h ha) ha

/-!
Well-formed commit blocks, as produced by the git `--pretty` format of
line 41: header `hash|author|date`, newline, `COMMIT_MESSAGE_START`, message
text, `COMMIT_END`.
-/

/-- The header line `hash|author|date` of a commit block. -/
def blockHeader (h a d : List Char) : List Char := h ++ ['|'] ++ a ++ ['|'] ++ d

/-- The text of one commit block after its `COMMIT_START` sentinel. -/
def blockBody (h a d m : List Char) : List Char :=
  blockHeader h a d ++ ['\n'] ++ tokMsg ++ m ++ tokEnd

/-- Header characters exclude newlines when the three fields do. -/
theorem blockHeader_no_newline {h a d : List Char}
    (hh : ∀ c ∈ h, wsChar c = false) (ha : ∀ c ∈ a, c ≠ '\n')
    (hd : ∀ c ∈ d, c ≠ '\n') :
    ∀ c ∈ blockHeader h a d, c ≠ '\n' := by
  intro c hc
  simp only [blockHeader, List.append_assoc, List.mem_append,
    List.mem_singleton] at hc
  rcases hc with hc | hc | hc | hc | hc
  · intro he
    have := hh c hc
    rw [he] at this
    simp [wsChar] at this
  · rw [hc]; decide
  · exact ha c hc
  · rw [hc]; decide
  · exact hd c hc

/-- `lstrip` keeps an appended list headed by a non-blank part. -/
theorem trimL_append_left {x : List Char} (y : List Char) (hx : x ≠ [])
    (h : ∀ c ∈ x, wsChar c = false) : trimL (x ++ y) = x ++ y := by
  cases x with
  | nil => exact absurd rfl hx
  | cons c t =>
    rw [List.cons_append]
    exact trimL_cons_neg _ (h c (List.mem_cons_self c t))

/-- A well-formed block body (with an optional trailing newline) strips to
itself without the trailing newline. -/
theorem trimList_blockBody (h a d m tail : List Char) (hh_ne : h ≠ [])
    (hh : ∀ c ∈ h, wsChar c = false) (htail : tail = [] ∨ tail = ['\n']) :
    trimList (blockBody h a d m ++ tail) = blockBody h a d m := by
  have hshape : blockBody h a d m ++ tail =
      h ++ (['|'] ++ a ++ ['|'] ++ d ++ ['\n'] ++ tokMsg ++ m ++ tokEnd ++ tail) := by
    simp [blockBody, blockHeader, List.append_assoc]
  have hL : trimL (blockBody h a d m ++ tail) = blockBody h a d m ++ tail := by
    rw [hshape]
    rw [trimL_append_left _ hh_ne hh]
  have hEnd : tokEnd = ['C', 'O', 'M', 'M', 'I', 'T', '_', 'E', 'N'] ++ ['D'] := rfl
  have hR : trimR (blockBody h a d m) = blockBody h a d m := by
    have hshape2 : blockBody h a d m =
        (blockHeader h a d ++ ['\n'] ++ tokMsg ++ m ++
          ['C', 'O', 'M', 'M', 'I', 'T', '_', 'E', 'N']) ++ ['D'] := by
      rw [blockBody, hEnd]
      simp [List.append_assoc]
    rw [hshape2, trimR_append_end _ (by decide), ← hshape2]
  rcases htail with htail | htail
  · rw [htail, List.append_nil] at hL ⊢
    rw [trimList, hL, hR]
  · rw [htail] at hL ⊢
    rw [trimList, hL, trimR_append_ws _ (by decide), hR]

/-- Position of `COMMIT_MESSAGE_START` in a well-formed block: right after
the header line, provided the sentinel does not occur inside the header. -/
theorem findSub_tokMsg_block (h a d m tail2 : List Char)
    (hmsgHdr : noOcc tokMsg (blockHeader h a d) = true) :
    findSub tokMsg (blockBody h a d m ++ tail2) =
      some ((blockHeader h a d).length + 1) := by
  have hshape : blockBody h a d m ++ tail2 =
      blockHeader h a d ++ '\n' :: (tokMsg ++ (m ++ tokEnd ++ tail2)) := by
    simp [blockBody, List.append_assoc]
  rw [hshape]
  apply findSub_eq_of
  · have hdrop : (blockHeader h a d ++
        '\n' :: (tokMsg ++ (m ++ tokEnd ++ tail2))).drop
          ((blockHeader h a d).length + 1) = tokMsg ++ (m ++ tokEnd ++ tail2) := by
      rw [List.drop_append_eq_append_drop]
      have h1 : (blockHeader h a d).drop ((blockHeader h a d).length + 1) = [] :=
        List.drop_eq_nil_of_le (by omega)
      have h2 : (blockHeader h a d).length + 1 - (blockHeader h a d).length = 1 := by
        omega
      rw [h1, h2]
      simp
    rw [hdrop]
    exact isPre_append_self _ _
  · exact noOcc_append_sep _ (by decide) hmsgHdr (by decide)

/-- `COMMIT_END` has no non-trivial border: no proper suffix of it is also a
prefix. This is what rules out a match of `COMMIT_END` straddling the message
text and the terminating sentinel. -/
theorem tokEnd_no_border :
    ∀ s, 0 < s → s < tokEnd.length →
      ∃ j, j < tokEnd.length - s ∧ tokEnd[s + j]? ≠ tokEnd[j]? := by
  have hlen : tokEnd.length = 10 := rfl
  have H : ∀ s, s < 10 → 0 < s →
      ∃ j, j < 10 - s ∧ tokEnd[s + j]? ≠ tokEnd[j]? := by decide
  intro s h1 h2
  rw [hlen] at h2 ⊢
  exact H s h2 h1

/-- Position of `COMMIT_END` in a well-formed block: right after the message
text, provided the sentinel occurs neither in the header nor inside
`COMMIT_MESSAGE_START ++ message`. -/
theorem findSub_tokEnd_block (h a d m tail2 : List Char)
    (hendHdr : noOcc tokEnd (blockHeader h a d) = true)
    (hendMsg : noOcc tokEnd (tokMsg ++ m) = true) :
    findSub tokEnd (blockBody h a d m ++ tail2) =
      some ((blockHeader h a d).length + 1 + tokMsg.length + m.length) := by
  apply findSub_eq_of
  · have hshape : blockBody h a d m ++ tail2 =
        (blockHeader h a d ++ '\n' :: (tokMsg ++ m)) ++ (tokEnd ++ tail2) := by
      simp [blockBody, List.append_assoc]
    have hlen : (blockHeader h a d ++ '\n' :: (tokMsg ++ m)).length =
        (blockHeader h a d).length + 1 + tokMsg.length + m.length := by
      simp
      omega
    rw [hshape, ← hlen, List.drop_left]
    exact isPre_append_self _ _
  · intro i hi
    by_cases hcase : i < (blockHeader h a d).length + 1
    · have hshape : blockBody h a d m ++ tail2 =
          blockHeader h a d ++ '\n' :: ((tokMsg ++ m) ++ tokEnd ++ tail2) := by
        simp [blockBody, List.append_assoc]
      rw [hshape]
      exact noOcc_append_sep _ (by decide) hendHdr (by decide) i hcase
    · have hshape : blockBody h a d m ++ tail2 =
          blockHeader h a d ++ '\n' :: ((tokMsg ++ m) ++ tokEnd ++ tail2) := by
        simp [blockBody, List.append_assoc]
      set i' := i - ((blockHeader h a d).length + 1) with hi'
      have hdrop : (blockBody h a d m ++ tail2).drop i =
          ((tokMsg ++ m) ++ tokEnd ++ tail2).drop i' := by
        rw [hshape, List.drop_append_eq_append_drop]
        have h1 : (blockHeader h a d).drop i = [] :=
          List.drop_eq_nil_of_le (by omega)
        have h2 : i - (blockHeader h a d).length = i' + 1 := by omega
        rw [h1, h2]
        simp
      rw [hdrop]
      apply noOcc_before_self tail2 (by decide) hendMsg
        (fun s h1 h2 => tokEnd_no_border s h1 h2)
      have hlen2 : (tokMsg ++ m).length = tokMsg.length + m.length := by simp
      rw [hlen2]
      omega

/-- Python slice indices that are non-negative machine integers clamp to
`min` with the length. -/
theorem pyIdx_natCast (n k : Nat) : pyIdx n (k : Int) = min k n := by
  have h1 : ¬((k : Int) < 0) := by omega
  simp [pyIdx, h1]

/-- The slice between the two sentinel positions recovers the message text. -/
theorem pySliceI_block (h a d m tail2 : List Char) :
    pySliceI (blockBody h a d m ++ tail2)
      (((blockHeader h a d).length + 1 + tokMsg.length : Nat) : Int)
      (((blockHeader h a d).length + 1 + tokMsg.length + m.length : Nat) : Int) = m := by
  have hshape : blockBody h a d m ++ tail2 =
      (blockHeader h a d ++ ['\n'] ++ tokMsg) ++ m ++ (tokEnd ++ tail2) := by
    simp [blockBody, List.append_assoc]
  have hX : (blockHeader h a d ++ ['\n'] ++ tokMsg).length =
      (blockHeader h a d).length + 1 + tokMsg.length := by
    simp
    omega
  have hn : (blockBody h a d m ++ tail2).length =
      (blockHeader h a d).length + 1 + tokMsg.length + m.length +
        (tokEnd.length + tail2.length) := by
    simp [blockBody]
    omega
  unfold pySliceI
  rw [pyIdx_natCast, pyIdx_natCast, hn]
  have hmin1 : min ((blockHeader h a d).length + 1 + tokMsg.length + m.length)
      ((blockHeader h a d).length + 1 + tokMsg.length + m.length +
        (tokEnd.length + tail2.length)) =
      (blockHeader h a d).length + 1 + tokMsg.length + m.length := by omega
  have hmin2 : min ((blockHeader h a d).length + 1 + tokMsg.length)
      ((blockHeader h a d).length + 1 + tokMsg.length + m.length +
        (tokEnd.length + tail2.length)) =
      (blockHeader h a d).length + 1 + tokMsg.length := by omega
  rw [hmin1, hmin2, hshape, ← hX]
  have hs := slice_mid (blockHeader h a d ++ ['\n'] ++ tokMsg) m (tokEnd ++ tail2)
  rw [← List.append_assoc] at hs ⊢
  convert hs using 3

/-- A block body is never empty. -/
theorem blockBody_ne_nil (h a d m : List Char) : blockBody h a d m ≠ [] := by
  simp [blockBody, tokEnd]

/-- Splitting a block body on newlines isolates the header as first line. -/
theorem splitOnSub_newline_blockBody (h a d m : List Char)
    (hh : ∀ c ∈ h, wsChar c = false) (ha : ∀ c ∈ a, c ≠ '\n')
    (hd : ∀ c ∈ d, c ≠ '\n') :
    splitOnSub ['\n'] (blockBody h a d m) =
      blockHeader h a d :: splitOnSub ['\n'] (tokMsg ++ m ++ tokEnd) := by
  have hshape : blockBody h a d m =
      blockHeader h a d ++ ('\n' :: (tokMsg ++ m ++ tokEnd)) := by
    simp [blockBody, List.append_assoc]
  have hsep : splitOnSub ['\n'] ('\n' :: (tokMsg ++ m ++ tokEnd)) =
      [] :: splitOnSub ['\n'] (tokMsg ++ m ++ tokEnd) := by
    have hs := splitOnSub_sep (P := ['\n']) (by decide) (tokMsg ++ m ++ tokEnd)
    simpa using hs
  have hpre := isPre_singleton_absent ('\n' :: (tokMsg ++ m ++ tokEnd))
    (blockHeader_no_newline hh ha hd)
  have hmain := splitOnSub_no_occ_prefix (blockHeader h a d)
    ('\n' :: (tokMsg ++ m ++ tokEnd)) []
    (splitOnSub ['\n'] (tokMsg ++ m ++ tokEnd)) hpre hsep
  rw [hshape]
  simpa using hmain

/-- Parsing one well-formed block: the hash is the header's first field
truncated to 8 characters, author and date are the next fields (split on the
first two `'|'` only), and the message is the stripped text between the two
message sentinels. -/
theorem parseBlock_wf (rn h a d m tail2 : List Char)
    (hh_ne : h ≠ [])
    (hh : ∀ c ∈ h, wsChar c = false ∧ c ≠ '|')
    (ha : ∀ c ∈ a, c ≠ '|' ∧ c ≠ '\n')
    (hd : ∀ c ∈ d, c ≠ '\n')
    (hmsgHdr : noOcc tokMsg (blockHeader h a d) = true)
    (hendHdr : noOcc tokEnd (blockHeader h a d) = true)
    (hendMsg : noOcc tokEnd (tokMsg ++ m) = true)
    (htail : tail2 = [] ∨ tail2 = ['\n']) :
    parseBlock rn (blockBody h a d m ++ tail2) =
      Except.ok ⟨h.take 8, a, d, trimList m, rn⟩ := by
  have hh1 : ∀ c ∈ h, wsChar c = false := fun c hc => (hh c hc).1
  have htrim := trimList_blockBody h a d m tail2 hh_ne hh1 htail
  have hlines := splitOnSub_newline_blockBody h a d m hh1
    (fun c hc => (ha c hc).2) hd
  have hsplit1 : split1 '|' (blockHeader h a d) = some (h, a ++ ['|'] ++ d) := by
    have hshape : blockHeader h a d = h ++ '|' :: (a ++ ['|'] ++ d) := by
      simp [blockHeader, List.append_assoc]
    rw [hshape]
    exact split1_append h _ (fun hm => (hh '|' hm).2 rfl)
  have hsplit2 : split1 '|' (a ++ ['|'] ++ d) = some (a, d) := by
    have hshape : a ++ ['|'] ++ d = a ++ '|' :: d := by simp
    rw [hshape]
    exact split1_append a d (fun hm => (ha '|' hm).1 rfl)
  have hpf1 : pyFind tokMsg (blockBody h a d m ++ tail2) =
      (((blockHeader h a d).length + 1 : Nat) : Int) := by
    rw [pyFind, findSub_tokMsg_block h a d m tail2 hmsgHdr]
  have hpf2 : pyFind tokEnd (blockBody h a d m ++ tail2) =
      (((blockHeader h a d).length + 1 + tokMsg.length + m.length : Nat) : Int) := by
    rw [pyFind, findSub_tokEnd_block h a d m tail2 hendHdr hendMsg]
  have hcast : (((blockHeader h a d).length + 1 : Nat) : Int) +
      (tokMsg.length : Int) =
      (((blockHeader h a d).length + 1 + tokMsg.length : Nat) : Int) := by
    push_cast
    ring
  have hslice := pySliceI_block h a d m tail2
  simp only [parseBlock]
  rw [htrim, hlines]
  simp only [List.headD_cons]
  simp only [hsplit1, hsplit2, hpf1, hpf2, hcast, hslice]

/-- Raw git output consisting of exactly two commit blocks, as emitted by the
format string of line 41 (entries separated by a newline). -/
def rawTwoBlocks (h₁ a₁ d₁ m₁ h₂ a₂ d₂ m₂ : List Char) : List Char :=
  tokStart ++ (blockBody h₁ a₁ d₁ m₁ ++ '\n' :: (tokStart ++ blockBody h₂ a₂ d₂ m₂))

/-- Splitting two sentinel-led blocks on `COMMIT_START` yields the leading
empty chunk and the two block texts. -/
theorem splitOnSub_two_blocks (b₁ b₂ : List Char)
    (h1 : noOcc tokStart b₁ = true) (h2 : noOcc tokStart b₂ = true) :
    splitOnSub tokStart (tokStart ++ (b₁ ++ '\n' :: (tokStart ++ b₂))) =
      [[], b₁ ++ ['\n'], b₂] := by
  rw [splitOnSub_sep (by decide)]
  have hb2 : splitOnSub tokStart b₂ = [b₂] := splitOnSub_no_occ h2
  have hsep2 : splitOnSub tokStart (tokStart ++ b₂) = [] :: [b₂] := by
    rw [splitOnSub_sep (by decide), hb2]
  have hpre : ∀ i < (b₁ ++ ['\n']).length,
      isPre tokStart (((b₁ ++ ['\n']) ++ (tokStart ++ b₂)).drop i) = false := by
    have hsep3 := noOcc_append_sep (tokStart ++ b₂) (by decide) h1
      (show '\n' ∉ tokStart by decide)
    intro i hi
    have hlen : (b₁ ++ ['\n']).length = b₁.length + 1 := by simp
    have hshape : (b₁ ++ ['\n']) ++ (tokStart ++ b₂) =
        b₁ ++ '\n' :: (tokStart ++ b₂) := by simp
    rw [hshape]
    exact hsep3 i (by omega)
  have hmain := splitOnSub_no_occ_prefix (b₁ ++ ['\n']) (tokStart ++ b₂)
    [] [b₂] hpre hsep2
  have hshape2 : (b₁ ++ ['\n']) ++ (tokStart ++ b₂) =
      b₁ ++ '\n' :: (tokStart ++ b₂) := by simp
  rw [hshape2] at hmain
  rw [hmain]
  simp

/-- Two-block raw output strips to itself: it starts with `'C'` and ends with
`'D'`. -/
theorem trimList_rawTwoBlocks (h₁ a₁ d₁ m₁ h₂ a₂ d₂ m₂ : List Char) :
    trimList (rawTwoBlocks h₁ a₁ d₁ m₁ h₂ a₂ d₂ m₂) =
      rawTwoBlocks h₁ a₁ d₁ m₁ h₂ a₂ d₂ m₂ := by
  have hL : trimL (rawTwoBlocks h₁ a₁ d₁ m₁ h₂ a₂ d₂ m₂) =
      rawTwoBlocks h₁ a₁ d₁ m₁ h₂ a₂ d₂ m₂ := by
    show trimL (tokStart ++ _) = _
    rw [trimL_append_left _ (by decide) (by decide)]
    rfl
  have hshape : rawTwoBlocks h₁ a₁ d₁ m₁ h₂ a₂ d₂ m₂ =
      (tokStart ++ blockBody h₁ a₁ d₁ m₁ ++ ['\n'] ++ tokStart ++
        blockHeader h₂ a₂ d₂ ++ ['\n'] ++ tokMsg ++ m₂ ++
        ['C', 'O', 'M', 'M', 'I', 'T', '_', 'E', 'N']) ++ ['D'] := by
    simp [rawTwoBlocks, blockBody, tokEnd, List.append_assoc]
  have hR : trimR (rawTwoBlocks h₁ a₁ d₁ m₁ h₂ a₂ d₂ m₂) =
      rawTwoBlocks h₁ a₁ d₁ m₁ h₂ a₂ d₂ m₂ := by
    rw [hshape, trimR_append_end _ (by decide)]
  rw [trimList, hL, hR]

/-- C3: raw output made of exactly two well-formed commit blocks parses to
exactly two records; each record's hash is the first 8 characters of the
header's full hash, and each message is the text between the message
sentinels stripped of surrounding whitespace, containing neither sentinel
token. -/
theorem parse_two_wf_blocks (rp : Option (List Char)) (rn cwd0 : List Char)
    (h₁ a₁ d₁ m₁ h₂ a₂ d₂ m₂ : List Char)
    (hh1_ne : h₁ ≠ []) (hh1 : ∀ c ∈ h₁, wsChar c = false ∧ c ≠ '|')
    (ha1 : ∀ c ∈ a₁, c ≠ '|' ∧ c ≠ '\n') (hd1 : ∀ c ∈ d₁, c ≠ '\n')
    (hmsgHdr1 : noOcc tokMsg (blockHeader h₁ a₁ d₁) = true)
    (hendHdr1 : noOcc tokEnd (blockHeader h₁ a₁ d₁) = true)
    (hendMsg1 : noOcc tokEnd (tokMsg ++ m₁) = true)
    (hmsgMsg1 : noOcc tokMsg m₁ = true)
    (hstart1 : noOcc tokStart (blockBody h₁ a₁ d₁ m₁) = true)
    (hh2_ne : h₂ ≠ []) (hh2 : ∀ c ∈ h₂, wsChar c = false ∧ c ≠ '|')
    (ha2 : ∀ c ∈ a₂, c ≠ '|' ∧ c ≠ '\n') (hd2 : ∀ c ∈ d₂, c ≠ '\n')
    (hmsgHdr2 : noOcc tokMsg (blockHeader h₂ a₂ d₂) = true)
    (hendHdr2 : noOcc tokEnd (blockHeader h₂ a₂ d₂) = true)
    (hendMsg2 : noOcc tokEnd (tokMsg ++ m₂) = true)
    (hmsgMsg2 : noOcc tokMsg m₂ = true)
    (hstart2 : noOcc tokStart (blockBody h₂ a₂ d₂ m₂) = true) :
    (get_commits_by_date rp rn
        (.success (rawTwoBlocks h₁ a₁ d₁ m₁ h₂ a₂ d₂ m₂)) cwd0).result =
      Except.ok [⟨h₁.take 8, a₁, d₁, trimList m₁, rn⟩,
                 ⟨h₂.take 8, a₂, d₂, trimList m₂, rn⟩] ∧
    noOcc tokMsg (trimList m₁) = true ∧ noOcc tokEnd (trimList m₁) = true ∧
    noOcc tokMsg (trimList m₂) = true ∧ noOcc tokEnd (trimList m₂) = true := by
  have htrimraw := trimList_rawTwoBlocks h₁ a₁ d₁ m₁ h₂ a₂ d₂ m₂
  have hrawne : rawTwoBlocks h₁ a₁ d₁ m₁ h₂ a₂ d₂ m₂ ≠ [] := by
    simp [rawTwoBlocks, tokStart]
  have hsplit := splitOnSub_two_blocks (blockBody h₁ a₁ d₁ m₁)
    (blockBody h₂ a₂ d₂ m₂) hstart1 hstart2
  have htb1 : trimList (blockBody h₁ a₁ d₁ m₁ ++ ['\n']) = blockBody h₁ a₁ d₁ m₁ :=
    trimList_blockBody h₁ a₁ d₁ m₁ ['\n'] hh1_ne (fun c hc => (hh1 c hc).1)
      (Or.inr rfl)
  have htb2 : trimList (blockBody h₂ a₂ d₂ m₂) = blockBody h₂ a₂ d₂ m₂ := by
    have h0 := trimList_blockBody h₂ a₂ d₂ m₂ [] hh2_ne (fun c hc => (hh2 c hc).1)
      (Or.inl rfl)
    simpa using h0
  have hpb1 := parseBlock_wf rn h₁ a₁ d₁ m₁ ['\n'] hh1_ne hh1 ha1 hd1
    hmsgHdr1 hendHdr1 hendMsg1 (Or.inr rfl)
  have hpb2 : parseBlock rn (blockBody h₂ a₂ d₂ m₂) =
      Except.ok ⟨h₂.take 8, a₂, d₂, trimList m₂, rn⟩ := by
    have h0 := parseBlock_wf rn h₂ a₂ d₂ m₂ [] hh2_ne hh2 ha2 hd2
      hmsgHdr2 hendHdr2 hendMsg2 (Or.inl rfl)
    simpa using h0
  have hne1 : trimList (blockBody h₁ a₁ d₁ m₁ ++ ['\n']) = [] ↔ False := by
    rw [htb1]
    simpa using blockBody_ne_nil h₁ a₁ d₁ m₁
  have hne2 : trimList (blockBody h₂ a₂ d₂ m₂) = [] ↔ False := by
    rw [htb2]
    simpa using blockBody_ne_nil h₂ a₂ d₂ m₂
  have hpg : parseGitOutput rn (rawTwoBlocks h₁ a₁ d₁ m₁ h₂ a₂ d₂ m₂) =
      Except.ok [⟨h₁.take 8, a₁, d₁, trimList m₁, rn⟩,
                 ⟨h₂.take 8, a₂, d₂, trimList m₂, rn⟩] := by
    unfold parseGitOutput
    rw [htrimraw]
    simp only [rawTwoBlocks]
    rw [hsplit]
    simp [List.foldlM_cons, List.foldlM_nil, hne1, hne2, hpb1, hpb2,
      Except.map, Except.bind, pure, Except.pure]
    rfl
  have hte1 : noOcc tokEnd (trimList m₁) = true :=
    noOcc_trimList (by decide) (noOcc_append_elim_right (by decide) hendMsg1)
  have hte2 : noOcc tokEnd (trimList m₂) = true :=
    noOcc_trimList (by decide) (noOcc_append_elim_right (by decide) hendMsg2)
  refine ⟨?_, noOcc_trimList (by decide) hmsgMsg1, hte1,
    noOcc_trimList (by decide) hmsgMsg2, hte2⟩
  simp only [get_commits_by_date]
  rw [htrimraw, if_neg hrawne, hpg]

/-- Witness for C3: two concrete well-formed blocks (9-character hash in the
first, so truncation to 8 is visible; a message with surrounding blanks and
an interior `'|'`). -/
theorem parse_two_wf_blocks_witness :
    (get_commits_by_date none ['R'] (.success (rawTwoBlocks
        ['a', 'b', 'c', 'd', 'e', 'f', '0', '1', '2'] ['A', 'l'] ['2', '0']
        [' ', 'f', 'i', 'x', ' ', '|', ' ', 'o', 'k', ' ']
        ['d', 'e', 'a', 'd', 'b', 'e', 'e', 'f'] ['B', 'o'] ['2', '1']
        ['s', 'e', 'c'])) ['w']).result =
      Except.ok [⟨['a', 'b', 'c', 'd', 'e', 'f', '0', '1', '2'].take 8,
          ['A', 'l'], ['2', '0'],
          trimList [' ', 'f', 'i', 'x', ' ', '|', ' ', 'o', 'k', ' '], ['R']⟩,
        ⟨['d', 'e', 'a', 'd', 'b', 'e', 'e', 'f'].take 8, ['B', 'o'], ['2', '1'],
          trimList ['s', 'e', 'c'], ['R']⟩] ∧
    noOcc tokMsg (trimList [' ', 'f', 'i', 'x', ' ', '|', ' ', 'o', 'k', ' ']) = true ∧
    noOcc tokEnd (trimList [' ', 'f', 'i', 'x', ' ', '|', ' ', 'o', 'k', ' ']) = true ∧
    noOcc tokMsg (trimList ['s', 'e', 'c']) = true ∧
    noOcc tokEnd (trimList ['s', 'e', 'c']) = true :=
  parse_two_wf_blocks none ['R'] ['w']
    ['a', 'b', 'c', 'd', 'e', 'f', '0', '1', '2'] ['A', 'l'] ['2', '0']
    [' ', 'f', 'i', 'x', ' ', '|', ' ', 'o', 'k', ' ']
    ['d', 'e', 'a', 'd', 'b', 'e', 'e', 'f'] ['B', 'o'] ['2', '1']
    ['s', 'e', 'c']
    (by decide) (by decide) (by decide) (by decide) (by decide) (by decide)
    (by decide) (by decide) (by decide)
    (by decide) (by decide) (by decide) (by decide) (by decide) (by decide)
    (by decide) (by decide) (by decide)

/-- Single-block raw output strips to itself. -/
theorem trimList_rawOneBlock (h a d m : List Char) :
    trimList (tokStart ++ blockBody h a d m) = tokStart ++ blockBody h a d m := by
  have hL : trimL (tokStart ++ blockBody h a d m) =
      tokStart ++ blockBody h a d m :=
    trimL_append_left _ (by decide) (by decide)
  have hshape : tokStart ++ blockBody h a d m =
      (tokStart ++ blockHeader h a d ++ ['\n'] ++ tokMsg ++ m ++
        ['C', 'O', 'M', 'M', 'I', 'T', '_', 'E', 'N']) ++ ['D'] := by
    simp [blockBody, tokEnd, List.append_assoc]
  have hR : trimR (tokStart ++ blockBody h a d m) =
      tokStart ++ blockBody h a d m := by
    rw [hshape, trimR_append_end _ (by decide)]
  rw [trimList, hL, hR]

/-- C4: in a well-formed block whose message contains `'|'` (and whose date
field may also contain `'|'`), the parse keeps the message intact — the
header is split on its first two `'|'` occurrences only, so pipes in the
message (or in the third header field) are never treated as field
separators. -/
theorem pipe_in_message_preserved (rp : Option (List Char)) (rn cwd0 : List Char)
    (h a d m : List Char)
    (hh_ne : h ≠ []) (hh : ∀ c ∈ h, wsChar c = false ∧ c ≠ '|')
    (ha : ∀ c ∈ a, c ≠ '|' ∧ c ≠ '\n') (hd : ∀ c ∈ d, c ≠ '\n')
    (hmsgHdr : noOcc tokMsg (blockHeader h a d) = true)
    (hendHdr : noOcc tokEnd (blockHeader h a d) = true)
    (hendMsg : noOcc tokEnd (tokMsg ++ m) = true)
    (hstart : noOcc tokStart (blockBody h a d m) = true)
    (hpipe : '|' ∈ m) :
    (get_commits_by_date rp rn
        (.success (tokStart ++ blockBody h a d m)) cwd0).result =
      Except.ok [⟨h.take 8, a, d, trimList m, rn⟩] ∧
    '|' ∈ trimList m := by
  have htrimraw := trimList_rawOneBlock h a d m
  have hrawne : tokStart ++ blockBody h a d m ≠ [] := by
    simp [tokStart]
  have hsplit : splitOnSub tokStart (tokStart ++ blockBody h a d m) =
      [[], blockBody h a d m] := by
    rw [splitOnSub_sep (by decide), splitOnSub_no_occ hstart]
  have htb : trimList (blockBody h a d m) = blockBody h a d m := by
    have h0 := trimList_blockBody h a d m [] hh_ne (fun c hc => (hh c hc).1)
      (Or.inl rfl)
    simpa using h0
  have hpb : parseBlock rn (blockBody h a d m) =
      Except.ok ⟨h.take 8, a, d, trimList m, rn⟩ := by
    have h0 := parseBlock_wf rn h a d m [] hh_ne hh ha hd
      hmsgHdr hendHdr hendMsg (Or.inl rfl)
    simpa using h0
  have hne : trimList (blockBody h a d m) = [] ↔ False := by
    rw [htb]
    simpa using blockBody_ne_nil h a d m
  have hpg : parseGitOutput rn (tokStart ++ blockBody h a d m) =
      Except.ok [⟨h.take 8, a, d, trimList m, rn⟩] := by
    unfold parseGitOutput
    rw [htrimraw, hsplit]
    simp [List.foldlM_cons, List.foldlM_nil, hne, hpb, Except.map, pure,
      Except.pure]
    rfl
  refine ⟨?_, mem_trimList_of hpipe (by decide)⟩
  simp only [get_commits_by_date]
  rw [htrimraw, if_neg hrawne, hpg]

/-- Witness for C4: a concrete block whose message and date both contain
`'|'`. -/
theorem pipe_in_message_preserved_witness :
    (get_commits_by_date none ['R'] (.success (tokStart ++ blockBody
        ['a', 'b', 'c'] ['A', 'l'] ['2', '|', '0']
        ['f', 'i', 'x', ' ', '|', ' ', 'o', 'k'])) ['w']).result =
      Except.ok [⟨['a', 'b', 'c'].take 8, ['A', 'l'], ['2', '|', '0'],
        trimList ['f', 'i', 'x', ' ', '|', ' ', 'o', 'k'], ['R']⟩] ∧
    '|' ∈ trimList ['f', 'i', 'x', ' ', '|', ' ', 'o', 'k'] :=
  pipe_in_message_preserved none ['R'] ['w']
    ['a', 'b', 'c'] ['A', 'l'] ['2', '|', '0']
    ['f', 'i', 'x', ' ', '|', ' ', 'o', 'k']
    (by decide) (by decide) (by decide) (by decide) (by decide) (by decide)
    (by decide) (by decide) (by decide)
